import Mathlib

/-!
# GoChat: the broadcast hub of `main.go`

A shallow embedding of `ClientManager.start`, `ClientManager.send`,
`Client.read` and `Client.write`, followed by the properties of the hub's
membership map and of the clients' `send` channels.

Modelling conventions.

* A `*Client` is compared by pointer identity; it is modelled by a natural
  number.  The `send` channel of a client lives in the hub state, under the
  client's identity, from the moment the client is built
  (`make(chan []byte)`: open, nothing sent yet).
* The map `clients` is kept as the list of its keys.  A Go map holds a key at
  most once, which is the `Nodup` part of `ClientManager.WF`.  `range` walks
  the keys in list order; Go leaves the order unspecified, and every statement
  below is about membership and about the contents of individual channels.
* `send` is an unbuffered channel.  A blocking send `conn.send <- message`
  panics on a closed channel; on an open one it waits for the client's writer
  and then hands the payload over.  The model records the payload as sent: the
  writer of a member is always in its receive loop, which it leaves only when
  the channel is closed (see the section on the two pumps).
  The non-blocking send of the broadcast case succeeds exactly when the writer
  is parked in its receive at that moment, which is a fact of the environment:
  a broadcast request carries it as `ready : Client → Bool`.
* A Go panic (send on a closed channel, close of a closed channel) is the
  `error` side of `Except`.
* The requests the hub receives on its three channels are a list, in the order
  the `select` takes them.  The reader and the writer of a client are functions
  from what the transport and the channel deliver to the list of what the
  goroutine does, with a flag telling whether the function has returned.
-/

namespace GoChat

/-- A `*Client`, compared by identity. -/
abbrev Client := Nat

/-- A serialized message, `[]byte` in the source. -/
abbrev Payload := String

/-- The struct `Message` with its three `omitempty` string fields. -/
structure Message where
  Sender : String
  Recipient : String
  Content : String

/-- Lower-case hexadecimal digit, as used by `encoding/json` in `\u00XX`. -/
def hexDigit (n : Nat) : Char :=
  if n < 10 then Char.ofNat (48 + n) else Char.ofNat (87 + n)

/-- The six characters of a `\uXXXX` escape for a code point below 65536. -/
def uEscape (n : Nat) : List Char :=
  [Char.ofNat 92, Char.ofNat 117, hexDigit (n / 4096 % 16), hexDigit (n / 256 % 16),
    hexDigit (n / 16 % 16), hexDigit (n % 16)]

/-- How `encoding/json` writes one character of a string with its default
HTML escaping: the quote and the backslash get a backslash, newline, carriage
return and tab their short form, other control characters, the characters
less-than, greater-than, ampersand and the two Unicode line separators a
`\uXXXX` escape, everything else is copied.  (From Go 1.22 on, backspace and
form feed have a short form too; no payload built by the hub contains them.) -/
def jsonChar (c : Char) : List Char :=
  let n := c.toNat
  if n = 34 then [Char.ofNat 92, Char.ofNat 34]
  else if n = 92 then [Char.ofNat 92, Char.ofNat 92]
  else if n = 10 then [Char.ofNat 92, Char.ofNat 110]
  else if n = 13 then [Char.ofNat 92, Char.ofNat 114]
  else if n = 9 then [Char.ofNat 92, Char.ofNat 116]
  else if n < 32 ∨ n = 60 ∨ n = 62 ∨ n = 38 ∨ n = 8232 ∨ n = 8233 then uEscape n
  else [c]

/-- A JSON string literal. -/
def jsonString (s : String) : String :=
  String.mk ([Char.ofNat 34] ++ (s.data.map jsonChar).flatten ++ [Char.ofNat 34])

/-- One field of the object; `omitempty` drops a field whose value is the
empty string. -/
def jsonField (key value : String) : List String :=
  if value = "" then [] else [jsonString key ++ ":" ++ jsonString value]

/-- Joins the fields of an object with commas. -/
def jsonJoin : List String → String
  | [] => ""
  | [f] => f
  | f :: g :: rest => f ++ "," ++ jsonJoin (g :: rest)

/-- The call `json.Marshal(&Message{...})`: the fields in declaration order
under their tags `sender`, `recipient`, `content`. -/
def marshal (msg : Message) : Payload :=
  "\x7b" ++ jsonJoin (jsonField "sender" msg.Sender ++ jsonField "recipient" msg.Recipient
    ++ jsonField "content" msg.Content) ++ "\x7d"

/-- The payload built in the register case of `start`:
`json.Marshal(&Message{Content: "/New socket connected"})`. -/
def joinNotice : Payload :=
  marshal { Sender := "", Recipient := "", Content := "/New socket connected" }

/-- The payload built in the unregister case of `start`:
`json.Marshal(&Message{Content: "/A socket disconnected"})`. -/
def leaveNotice : Payload :=
  marshal { Sender := "", Recipient := "", Content := "/A socket disconnected" }

/-- A client's `send` channel as the hub sees it: whether it has been closed,
the payloads accepted on it so far (oldest first), and how many `close`
operations were executed on it. -/
structure Chan where
  closed : Bool
  sent : List Payload
  closes : Nat

/-- A channel fresh from `make(chan []byte)`. -/
def Chan.fresh : Chan := { closed := false, sent := [], closes := 0 }

/-- The channel after it accepted `message`. -/
def Chan.push (ch : Chan) (message : Payload) : Chan :=
  { ch with sent := ch.sent ++ [message] }

/-- The channel after `close`. -/
def Chan.shut (ch : Chan) : Chan :=
  { ch with closed := true, closes := ch.closes + 1 }

/-- The two run-time panics the hub loop can raise. -/
inductive Panic where
  | sendOnClosed (conn : Client)
  | closeOfClosed (conn : Client)
  deriving DecidableEq, Repr

/-- The hub state: the keys of the map `clients` and the `send` channel of
every client. -/
structure ClientManager where
  clients : List Client
  chans : Client → Chan

/-- The variable `manager` at start-up: an empty map; every client that will
ever be built has a fresh channel. -/
def manager : ClientManager := { clients := [], chans := fun _ => Chan.fresh }

/-- Replaces the channel of `conn`. -/
def setChan (chans : Client → Chan) (conn : Client) (ch : Chan) : Client → Chan :=
  fun d => if d = conn then ch else chans d

/-- The blocking statement `conn.send <- message`. -/
def chanSend (m : ClientManager) (conn : Client) (message : Payload) :
    Except Panic ClientManager :=
  if (m.chans conn).closed then .error (.sendOnClosed conn)
  else .ok { m with chans := setChan m.chans conn ((m.chans conn).push message) }

/-- The statement `close(conn.send)`. -/
def chanClose (m : ClientManager) (conn : Client) : Except Panic ClientManager :=
  if (m.chans conn).closed then .error (.closeOfClosed conn)
  else .ok { m with chans := setChan m.chans conn (m.chans conn).shut }

/-- The statement `manager.clients[conn] = true`. -/
def mapInsert (m : ClientManager) (conn : Client) : ClientManager :=
  if conn ∈ m.clients then m else { m with clients := m.clients ++ [conn] }

/-- The statement `delete(manager.clients, conn)`. -/
def mapDelete (m : ClientManager) (conn : Client) : ClientManager :=
  { m with clients := m.clients.filter (fun d => d ≠ conn) }

/-- The loop of `ClientManager.send` over the keys still to visit. -/
def sendLoop (message : Payload) (ignore : Client) :
    List Client → ClientManager → Except Panic ClientManager
  | [], m => .ok m
  | conn :: rest, m =>
    if conn ≠ ignore then
      match chanSend m conn message with
      | .error e => .error e
      | .ok m1 => sendLoop message ignore rest m1
    else sendLoop message ignore rest m

/-- The method `ClientManager.send`: a blocking send of `message` to every
key of the map other than `ignore`. -/
def ClientManager.send (m : ClientManager) (message : Payload) (ignore : Client) :
    Except Panic ClientManager :=
  sendLoop message ignore m.clients m

/-- The loop of the broadcast case over the keys still to visit: a
non-blocking send, and in the `default` branch `close` then `delete`. -/
def broadcastLoop (message : Payload) (ready : Client → Bool) :
    List Client → ClientManager → Except Panic ClientManager
  | [], m => .ok m
  | conn :: rest, m =>
    if (m.chans conn).closed then .error (.sendOnClosed conn)
    else if ready conn then
      broadcastLoop message ready rest
        { m with chans := setChan m.chans conn ((m.chans conn).push message) }
    else
      match chanClose m conn with
      | .error e => .error e
      | .ok m1 => broadcastLoop message ready rest (mapDelete m1 conn)

/-- What the `select` of `start` can receive: a client from `register`, a
client from `unregister`, or a payload from `broadcast` together with the
readiness of the writers while the fan-out runs. -/
inductive Request where
  | register (conn : Client)
  | unregister (conn : Client)
  | broadcast (message : Payload) (ready : Client → Bool)

/-- One iteration of the `for { select { ... } }` of `ClientManager.start`. -/
def ClientManager.step (m : ClientManager) : Request → Except Panic ClientManager
  | .register conn => (mapInsert m conn).send joinNotice conn
  | .unregister conn =>
    if conn ∈ m.clients then
      match chanClose m conn with
      | .error e => .error e
      | .ok m1 => (mapDelete m1 conn).send leaveNotice conn
    else .ok m
  | .broadcast message ready => broadcastLoop message ready m.clients m

/-- The method `ClientManager.start` on the requests it receives, in the
order it receives them. -/
def ClientManager.start : ClientManager → List Request → Except Panic ClientManager
  | m, [] => .ok m
  | m, r :: rest =>
    match m.step r with
    | .error e => .error e
    | .ok m1 => ClientManager.start m1 rest

/-- The clients handed to `register` by a sequence of requests, in order. -/
def registered : List Request → List Client
  | [] => []
  | .register conn :: rest => conn :: registered rest
  | .unregister _ :: rest => registered rest
  | .broadcast _ _ :: rest => registered rest

/-- Every client is handed to `register` at most once: `wsPage` builds a new
`Client` for each `manager.register <- client`, and nothing else sends on
`register`. -/
def FreshRegs (ops : List Request) : Prop := (registered ops).Nodup

instance (ops : List Request) : Decidable (FreshRegs ops) := by
  unfold FreshRegs; infer_instance

/-- Whether a request takes the member `c` out of the map: its own
unregistration, or a broadcast during which its channel does not accept. -/
def Request.drops (c : Client) : Request → Bool
  | .register _ => false
  | .unregister conn => decide (conn = c)
  | .broadcast _ ready => !ready c

/-- The specification's set of connections that have been registered and not
yet unregistered, where a connection becomes unregistered by an explicit
request or by a backpressure drop: `c` was registered by some request of the
sequence and no later request takes it out. -/
def RegisteredNotUnregistered (ops : List Request) (c : Client) : Prop :=
  ∃ pre post, ops = pre ++ Request.register c :: post ∧ ∀ r ∈ post, r.drops c = false

/-- The invariant of the hub loop relative to the set `R` of clients
registered so far: members are registered and their channel is open and was
never closed; a registered client that is no longer a member has a channel
closed by one `close`; the channel of a client not yet registered is open. -/
def Inv (m : ClientManager) (R : Client → Prop) : Prop :=
  m.clients.Nodup ∧
  (∀ c, c ∈ m.clients → R c ∧ (m.chans c).closed = false ∧ (m.chans c).closes = 0) ∧
  (∀ c, c ∉ m.clients → R c → (m.chans c).closed = true ∧ (m.chans c).closes = 1) ∧
  (∀ c, ¬ R c → (m.chans c).closed = false ∧ (m.chans c).closes = 0)

/-- What one call `c.socket.ReadMessage()` returns: a frame with a nil error,
or an error. -/
inductive ReadResult where
  | frame (message : String)
  | failure
  deriving DecidableEq, Repr

/-- What the reader goroutine does towards the hub and the transport. -/
inductive ReadEvent where
  | broadcast (payload : Payload)
  | unregister (conn : Client)
  | socketClose
  deriving DecidableEq, Repr

/-- The `for` loop of `Client.read` on the results of its successive reads.
The flag tells whether the loop was left by its `break`; when the results run
out the goroutine is still blocked in `ReadMessage`. -/
def readLoop (c : Client) (id : String) : List ReadResult → List ReadEvent × Bool
  | [] => ([], false)
  | .failure :: _ => ([.unregister c, .socketClose], true)
  | .frame message :: rest =>
    let r := readLoop c id rest
    (.broadcast (marshal { Sender := id, Recipient := "", Content := message }) :: r.1, r.2)

/-- The method `Client.read` of the client `c` with identifier `id`: the loop,
then, once the function returns, the deferred function. -/
def Client.read (c : Client) (id : String) (results : List ReadResult) :
    List ReadEvent × Bool :=
  let r := readLoop c id results
  if r.2 then (r.1 ++ [.unregister c, .socketClose], true) else (r.1, false)

/-- What the writer goroutine does on the transport. -/
inductive WriteEvent where
  | writeText (message : Payload)
  | writeClose
  | socketClose
  deriving DecidableEq, Repr

/-- The `for` loop of `Client.write`.  Each delivery is a payload received
from `c.send` together with the outcome of its `WriteMessage` (`true` for a
nil error), which the source discards; `closedAfter` tells whether the next
receive finds the channel closed.  The flag of the result tells whether the
function returned. -/
def writeLoop : List (Payload × Bool) → Bool → List WriteEvent × Bool
  | [], closedAfter => if closedAfter then ([.writeClose], true) else ([], false)
  | (message, _) :: rest, closedAfter =>
    let r := writeLoop rest closedAfter
    (.writeText message :: r.1, r.2)

/-- The method `Client.write`: the loop, then, once the function returns, the
deferred `c.socket.Close()`. -/
def Client.write (deliveries : List (Payload × Bool)) (closedAfter : Bool) :
    List WriteEvent × Bool :=
  let r := writeLoop deliveries closedAfter
  if r.2 then (r.1 ++ [.socketClose], true) else (r.1, false)

/-- The statement that the writer stops at the first failed write: it
attempts the payloads up to and including the failing one, then releases the
transport and returns. -/
def StopsAtFailedWrite (deliveries : List (Payload × Bool)) (closedAfter : Bool) : Prop :=
  ∀ pre message post, deliveries = pre ++ (message, false) :: post →
    (∀ d ∈ pre, d.2 = true) →
    Client.write deliveries closedAfter =
      (pre.map (fun d => WriteEvent.writeText d.1) ++
        [WriteEvent.writeText message, WriteEvent.socketClose], true)

/-- The invariant of the hub loop for one client `c`, where `B` says that `c`
has been registered: while `c` is in the map its channel is open and was never
closed; once it is registered and out of the map its channel is closed, by one
`close`; before it is registered its channel is open. -/
def ChanInv (m : ClientManager) (c : Client) (B : Prop) : Prop :=
  (c ∈ m.clients → B ∧ (m.chans c).closed = false ∧ (m.chans c).closes = 0) ∧
  (c ∉ m.clients → B → (m.chans c).closed = true ∧ (m.chans c).closes = 1) ∧
  (¬ B → (m.chans c).closed = false ∧ (m.chans c).closes = 0)

/-- A hub with the three members 1, 2 and 3, all channels fresh. -/
def hub123 : ClientManager := { clients := [1, 2, 3], chans := fun _ => Chan.fresh }

/-- A run in which client 1 is evicted by a broadcast and then unregistered
twice, while client 2 stays. -/
def evictThenUnregister : List Request :=
  [.register 1, .register 2, .broadcast "m" (fun c => decide (c = 2)), .unregister 1,
    .unregister 1]

/-- The hub states the program can be in: the map holds each key once and
the `send` channel of every member is open. -/
def ClientManager.WF (m : ClientManager) : Prop :=
  m.clients.Nodup ∧ ∀ c ∈ m.clients, (m.chans c).closed = false

instance (m : ClientManager) : Decidable m.WF := by
  unfold ClientManager.WF; infer_instance

/-! ## The two loops in closed form -/

theorem sendLoop_eq (message : Payload) (ignore : Client) :
    ∀ (keys : List Client) (m : ClientManager), keys.Nodup →
      (∀ c ∈ keys, c ≠ ignore → (m.chans c).closed = false) →
      sendLoop message ignore keys m = .ok
        { clients := m.clients,
          chans := fun d =>
            if d ∈ keys ∧ d ≠ ignore then (m.chans d).push message else m.chans d } := by
  intro keys
  induction keys with
  | nil => intro m _ _; simp [sendLoop]
  | cons conn rest ih =>
    intro m hnd hopen
    have hnot : conn ∉ rest := (List.nodup_cons.mp hnd).1
    have hrest : rest.Nodup := (List.nodup_cons.mp hnd).2
    by_cases hc : conn = ignore
    · subst hc
      simp only [sendLoop, ne_eq, not_true_eq_false, if_false]
      rw [ih m hrest (fun c hcr hne => hopen c (List.mem_cons_of_mem _ hcr) hne)]
      congr 2
      funext d
      by_cases hd : d = conn
      · subst hd; simp
      · simp [hd]
    · have ho : (m.chans conn).closed = false := hopen conn (List.mem_cons_self _ _) hc
      simp only [sendLoop, ne_eq, hc, not_false_eq_true, if_true, chanSend, ho]
      simp only [Bool.false_eq_true, if_false]
      rw [ih _ hrest]
      · congr 2
        funext d
        by_cases hd : d = conn
        · subst hd; simp [setChan, hnot, hc]
        · simp [setChan, hd]
      · intro c hcr hne
        have hcc : c ≠ conn := fun h => hnot (h ▸ hcr)
        simpa [setChan, hcc] using hopen c (List.mem_cons_of_mem _ hcr) hne

theorem broadcastLoop_eq (message : Payload) (ready : Client → Bool) :
    ∀ (keys : List Client) (m : ClientManager), keys.Nodup →
      (∀ c ∈ keys, (m.chans c).closed = false) →
      broadcastLoop message ready keys m = .ok
        { clients := m.clients.filter (fun d => decide (d ∈ keys → ready d = true)),
          chans := fun d =>
            if d ∈ keys then
              (if ready d then (m.chans d).push message else (m.chans d).shut)
            else m.chans d } := by
  intro keys
  induction keys with
  | nil => intro m _ _; simp [broadcastLoop]
  | cons conn rest ih =>
    intro m hnd hopen
    have hnot : conn ∉ rest := (List.nodup_cons.mp hnd).1
    have hrest : rest.Nodup := (List.nodup_cons.mp hnd).2
    have ho : (m.chans conn).closed = false := hopen conn (List.mem_cons_self _ _)
    by_cases hr : ready conn = true
    · simp only [broadcastLoop, ho, Bool.false_eq_true, if_false, hr, if_true]
      rw [ih _ hrest]
      · congr 2
        · apply List.filter_congr
          intro d _
          by_cases hd : d = conn
          · subst hd; simp [hnot, hr]
          · simp [hd]
        · funext d
          by_cases hd : d = conn
          · subst hd; simp [setChan, hnot, hr]
          · simp [setChan, hd]
      · intro c hcr
        have hcc : c ≠ conn := fun h => hnot (h ▸ hcr)
        simpa [setChan, hcc] using hopen c (List.mem_cons_of_mem _ hcr)
    · simp only [broadcastLoop, ho, Bool.false_eq_true, if_false, hr, chanClose]
      rw [ih _ hrest]
      · congr 2
        · simp only [mapDelete, List.filter_filter]
          apply List.filter_congr
          intro d _
          by_cases hd : d = conn
          · subst hd; simp [hr]
          · simp [hd]
        · funext d
          by_cases hd : d = conn
          · subst hd; simp [setChan, mapDelete, hnot, hr]
          · simp [setChan, mapDelete, hd]
      · intro c hcr
        have hcc : c ≠ conn := fun h => hnot (h ▸ hcr)
        simpa [setChan, mapDelete, hcc] using hopen c (List.mem_cons_of_mem _ hcr)

theorem sendLoop_clients (message : Payload) (ignore : Client) :
    ∀ (keys : List Client) (m m1 : ClientManager),
      sendLoop message ignore keys m = .ok m1 → m1.clients = m.clients := by
  intro keys
  induction keys with
  | nil => intro m m1 h; simp [sendLoop] at h; rw [← h]
  | cons conn rest ih =>
    intro m m1 h
    by_cases hc : conn = ignore
    · subst hc
      simp only [sendLoop, ne_eq, not_true_eq_false, if_false] at h
      exact ih m m1 h
    · simp only [sendLoop, ne_eq, hc, not_false_eq_true, if_true, chanSend] at h
      by_cases ho : (m.chans conn).closed = true
      · simp [ho] at h
      · simp only [ho, Bool.false_eq_true, if_false] at h
        have h1 := ih _ m1 h
        exact h1

/-! ## One iteration of the hub loop on a well-formed state -/

theorem step_register_eq (m : ClientManager) (conn : Client) (h : m.WF) :
    m.step (.register conn) = .ok
      { clients := (mapInsert m conn).clients,
        chans := fun d =>
          if d ∈ m.clients ∧ d ≠ conn then (m.chans d).push joinNotice else m.chans d } := by
  have hchans : (mapInsert m conn).chans = m.chans := by
    unfold mapInsert; split <;> rfl
  have hmem : ∀ d, d ∈ (mapInsert m conn).clients ↔ d ∈ m.clients ∨ d = conn := by
    intro d
    unfold mapInsert
    split
    · constructor
      · intro hd; exact Or.inl hd
      · rintro (hd | hd)
        · exact hd
        · subst hd; assumption
    · simp
  have hnd : (mapInsert m conn).clients.Nodup := by
    unfold mapInsert
    split
    · exact h.1
    · rename_i hc
      simp only
      rw [List.nodup_append]
      refine ⟨h.1, List.nodup_singleton _, ?_⟩
      intro a ha hb
      simp only [List.mem_singleton] at hb
      subst hb
      exact hc ha
  simp only [ClientManager.step, ClientManager.send]
  rw [sendLoop_eq joinNotice conn _ _ hnd]
  · congr 2
    funext d
    rw [hchans]
    by_cases hd : d = conn
    · simp [hd]
    · simp [hmem, hd]
  · intro c hc hne
    rw [hchans]
    rcases (hmem c).mp hc with hc1 | hc1
    · exact h.2 c hc1
    · exact absurd hc1 hne

theorem step_unregister_eq (m : ClientManager) (conn : Client) (h : m.WF)
    (hmem : conn ∈ m.clients) :
    m.step (.unregister conn) = .ok
      { clients := m.clients.filter (fun d => d ≠ conn),
        chans := fun d =>
          if d = conn then (m.chans conn).shut
          else if d ∈ m.clients then (m.chans d).push leaveNotice else m.chans d } := by
  have ho : (m.chans conn).closed = false := h.2 conn hmem
  simp only [ClientManager.step, hmem, if_true, chanClose, ho, Bool.false_eq_true, if_false,
    ClientManager.send, mapDelete]
  rw [sendLoop_eq leaveNotice conn _ _ (h.1.filter _)]
  · congr 2
    funext d
    by_cases hd : d = conn
    · subst hd; simp [setChan]
    · simp [setChan, hd, List.mem_filter]
  · intro c hc hne
    have hc1 : c ∈ m.clients := (List.mem_filter.mp hc).1
    simpa [setChan, hne] using h.2 c hc1

theorem step_broadcast_eq (m : ClientManager) (message : Payload) (ready : Client → Bool)
    (h : m.WF) :
    m.step (.broadcast message ready) = .ok
      { clients := m.clients.filter (fun d => ready d),
        chans := fun d =>
          if d ∈ m.clients then
            (if ready d then (m.chans d).push message else (m.chans d).shut)
          else m.chans d } := by
  simp only [ClientManager.step]
  rw [broadcastLoop_eq message ready _ _ h.1 h.2]
  congr 2
  apply List.filter_congr
  intro d hd
  simp [hd]

/-! ## What a loop that returns has done, on any state -/

theorem sendLoop_track (message : Payload) (ignore : Client) :
    ∀ (keys : List Client) (m m1 : ClientManager),
      sendLoop message ignore keys m = .ok m1 →
      (∀ c, (m1.chans c).closed = (m.chans c).closed ∧
        (m1.chans c).closes = (m.chans c).closes) ∧
      (∀ c, c ∉ keys ∨ c = ignore → m1.chans c = m.chans c) := by
  intro keys
  induction keys with
  | nil =>
    intro m m1 h
    simp only [sendLoop, Except.ok.injEq] at h
    subst h
    exact ⟨fun _ => ⟨rfl, rfl⟩, fun _ _ => rfl⟩
  | cons conn rest ih =>
    intro m m1 h
    by_cases hc : conn = ignore
    · subst hc
      simp only [sendLoop, ne_eq, not_true_eq_false, if_false] at h
      obtain ⟨h1, h2⟩ := ih m m1 h
      refine ⟨h1, ?_⟩
      intro c hcc
      apply h2 c
      rcases hcc with hcc | hcc
      · exact Or.inl (fun hr => hcc (List.mem_cons_of_mem _ hr))
      · exact Or.inr hcc
    · simp only [sendLoop, ne_eq, hc, not_false_eq_true, if_true, chanSend] at h
      by_cases ho : (m.chans conn).closed = true
      · simp [ho] at h
      · simp only [ho, Bool.false_eq_true, if_false] at h
        obtain ⟨h1, h2⟩ := ih _ m1 h
        refine ⟨?_, ?_⟩
        · intro c
          have := h1 c
          by_cases e : c = conn
          · subst e; simpa [setChan, Chan.push] using this
          · simpa [setChan, e] using this
        · intro c hcc
          have hne : c ≠ conn := by
            rcases hcc with hcc | hcc
            · exact fun e => hcc (e ▸ List.mem_cons_self _ _)
            · exact fun e => hc (e ▸ hcc)
          have hr : c ∉ rest ∨ c = ignore := by
            rcases hcc with hcc | hcc
            · exact Or.inl (fun hr => hcc (List.mem_cons_of_mem _ hr))
            · exact Or.inr hcc
          have := h2 c hr
          simpa [setChan, hne] using this

theorem sendLoop_error (message : Payload) (ignore : Client) :
    ∀ (keys : List Client) (m : ClientManager) (e : Panic),
      sendLoop message ignore keys m = .error e → ∃ d, e = .sendOnClosed d := by
  intro keys
  induction keys with
  | nil => intro m e h; simp [sendLoop] at h
  | cons conn rest ih =>
    intro m e h
    by_cases hc : conn = ignore
    · subst hc
      simp only [sendLoop, ne_eq, not_true_eq_false, if_false] at h
      exact ih m e h
    · simp only [sendLoop, ne_eq, hc, not_false_eq_true, if_true, chanSend] at h
      by_cases ho : (m.chans conn).closed = true
      · simp only [ho, if_true, Except.error.injEq] at h
        exact ⟨conn, h.symm⟩
      · simp only [ho, Bool.false_eq_true, if_false] at h
        exact ih _ e h

theorem broadcastLoop_error (message : Payload) (ready : Client → Bool) :
    ∀ (keys : List Client) (m : ClientManager) (e : Panic),
      broadcastLoop message ready keys m = .error e → ∃ d, e = .sendOnClosed d := by
  intro keys
  induction keys with
  | nil => intro m e h; simp [broadcastLoop] at h
  | cons conn rest ih =>
    intro m e h
    by_cases ho : (m.chans conn).closed = true
    · simp only [broadcastLoop, ho, if_true, Except.error.injEq] at h
      exact ⟨conn, h.symm⟩
    · by_cases hr : ready conn = true
      · simp only [broadcastLoop, ho, Bool.false_eq_true, if_false, hr, if_true] at h
        exact ih _ e h
      · simp only [broadcastLoop, ho, Bool.false_eq_true, if_false, hr, chanClose] at h
        exact ih _ e h

theorem broadcastLoop_open (message : Payload) (ready : Client → Bool) :
    ∀ (keys : List Client) (m m1 : ClientManager),
      broadcastLoop message ready keys m = .ok m1 → keys.Nodup →
      ∀ c ∈ keys, (m.chans c).closed = false := by
  intro keys
  induction keys with
  | nil => intro m m1 _ _ c hc; simp at hc
  | cons conn rest ih =>
    intro m m1 h hnd c hc
    have hnot : conn ∉ rest := (List.nodup_cons.mp hnd).1
    have hrest : rest.Nodup := (List.nodup_cons.mp hnd).2
    by_cases ho : (m.chans conn).closed = true
    · simp [broadcastLoop, ho] at h
    · have ho1 : (m.chans conn).closed = false := by simpa using ho
      rcases List.mem_cons.mp hc with e | hcr
      · subst e; exact ho1
      · have hne : c ≠ conn := fun e => hnot (e ▸ hcr)
        by_cases hr : ready conn = true
        · simp only [broadcastLoop, ho, Bool.false_eq_true, if_false, hr, if_true] at h
          have := ih _ m1 h hrest c hcr
          simpa [setChan, hne] using this
        · simp only [broadcastLoop, ho, Bool.false_eq_true, if_false, hr, chanClose] at h
          have := ih _ m1 h hrest c hcr
          simpa [setChan, mapDelete, hne] using this

/-- What one iteration that returns has done, on any state whose map holds
each key once: the new map, the channels it left alone, and the channels it
closed. -/
theorem step_track (m m1 : ClientManager) (r : Request) (hnd : m.clients.Nodup)
    (h : m.step r = .ok m1) :
    m1.clients.Nodup ∧
    (∀ c, c ∈ m1.clients ↔ (c ∈ m.clients ∧ r.drops c = false) ∨ c ∈ registered [r]) ∧
    (∀ c, c ∉ m.clients → (m1.chans c).sent = (m.chans c).sent) ∧
    (∀ c, c ∈ m.clients → r.drops c = true →
      (m.chans c).closed = false ∧ (m1.chans c).closed = true ∧
        (m1.chans c).closes = (m.chans c).closes + 1) ∧
    (∀ c, ¬ (c ∈ m.clients ∧ r.drops c = true) →
      (m1.chans c).closed = (m.chans c).closed ∧
        (m1.chans c).closes = (m.chans c).closes) := by
  cases r with
  | register conn =>
    simp only [ClientManager.step, ClientManager.send] at h
    have hcl := sendLoop_clients _ _ _ _ _ h
    obtain ⟨hfl, hfr⟩ := sendLoop_track _ _ _ _ _ h
    have hchans : (mapInsert m conn).chans = m.chans := by
      unfold mapInsert; split <;> rfl
    have hmem : ∀ d, d ∈ (mapInsert m conn).clients ↔ d ∈ m.clients ∨ d = conn := by
      intro d
      unfold mapInsert
      split
      · constructor
        · intro hd; exact Or.inl hd
        · rintro (hd | hd)
          · exact hd
          · subst hd; assumption
      · simp
    refine ⟨?_, ?_, ?_, ?_, ?_⟩
    · rw [hcl]
      unfold mapInsert
      split
      · exact hnd
      · rename_i hc
        simp only
        rw [List.nodup_append]
        refine ⟨hnd, List.nodup_singleton _, ?_⟩
        intro a ha hb
        simp only [List.mem_singleton] at hb
        exact hc (hb ▸ ha)
    · intro c
      rw [hcl, hmem c]
      simp [registered, Request.drops]
    · intro c hc
      have : c ∉ (mapInsert m conn).clients ∨ c = conn := by
        by_cases e : c = conn
        · exact Or.inr e
        · left; rw [hmem c]; simp [hc, e]
      rw [hfr c this, hchans]
    · intro c _ hd; simp [Request.drops] at hd
    · intro c _; rw [← hchans]; exact hfl c
  | unregister conn =>
    by_cases hc : conn ∈ m.clients
    · simp only [ClientManager.step, hc, if_true, chanClose] at h
      by_cases ho : (m.chans conn).closed = true
      · simp [ho] at h
      · have ho1 : (m.chans conn).closed = false := by simpa using ho
        simp only [ho, Bool.false_eq_true, if_false, ClientManager.send] at h
        have hcl := sendLoop_clients _ _ _ _ _ h
        obtain ⟨hfl, hfr⟩ := sendLoop_track _ _ _ _ _ h
        simp only [mapDelete] at hcl hfl hfr
        refine ⟨?_, ?_, ?_, ?_, ?_⟩
        · rw [hcl]; exact hnd.filter _
        · intro c
          rw [hcl]
          simp only [List.mem_filter, decide_eq_true_eq, registered, List.not_mem_nil,
            or_false, Request.drops, decide_eq_false_iff_not]
          constructor
          · rintro ⟨h1, h2⟩; exact ⟨h1, fun e => h2 e.symm⟩
          · rintro ⟨h1, h2⟩; exact ⟨h1, fun e => h2 e.symm⟩
        · intro c hcm
          have hne : c ≠ conn := fun e => hcm (e ▸ hc)
          have : c ∉ m.clients.filter (fun d => decide (d ≠ conn)) ∨ c = conn :=
            Or.inl (fun hf => hcm (List.mem_filter.mp hf).1)
          rw [hfr c this]
          simp [setChan, hne]
        · intro c _ hd
          simp only [Request.drops, decide_eq_true_eq] at hd
          subst hd
          have := hfl conn
          simp only [setChan, if_true, Chan.shut] at this
          exact ⟨ho1, this.1, this.2⟩
        · intro c hcd
          have hne : c ≠ conn := by
            intro e
            apply hcd
            subst e
            exact ⟨hc, by simp [Request.drops]⟩
          have := hfl c
          simpa [setChan, hne] using this
    · simp only [ClientManager.step, hc, if_false, Except.ok.injEq] at h
      subst h
      refine ⟨hnd, ?_, fun _ _ => rfl, ?_, fun _ _ => ⟨rfl, rfl⟩⟩
      · intro c
        simp only [registered, List.not_mem_nil, or_false, Request.drops,
          decide_eq_false_iff_not]
        constructor
        · intro h1; exact ⟨h1, fun e => hc (e ▸ h1)⟩
        · intro h1; exact h1.1
      · intro c hcm hd
        simp only [Request.drops, decide_eq_true_eq] at hd
        exact absurd (hd ▸ hcm) hc
  | broadcast message ready =>
    simp only [ClientManager.step] at h
    have hopen := broadcastLoop_open _ _ _ _ _ h hnd
    have heq := step_broadcast_eq m message ready ⟨hnd, hopen⟩
    simp only [ClientManager.step] at heq
    rw [heq] at h
    injection h with h
    subst h
    refine ⟨hnd.filter _, ?_, ?_, ?_, ?_⟩
    · intro c
      simp [List.mem_filter, registered, Request.drops]
    · intro c hcm
      simp [hcm]
    · intro c hcm hd
      simp only [Request.drops, Bool.not_eq_true'] at hd
      simp [hcm, hd, Chan.shut, hopen c hcm]
    · intro c hcd
      by_cases hcm : c ∈ m.clients
      · have hr : ready c = true := by
          by_contra hr
          apply hcd
          exact ⟨hcm, by simpa [Request.drops] using hr⟩
        simp [hcm, hr, Chan.push]
      · simp [hcm]

/-- An iteration never closes a closed channel of a client whose channel is
open whenever it is in the map. -/
theorem step_no_double_close (m : ClientManager) (r : Request) (c : Client)
    (hopen : c ∈ m.clients → (m.chans c).closed = false) :
    m.step r ≠ .error (.closeOfClosed c) := by
  intro h
  cases r with
  | register conn =>
    simp only [ClientManager.step, ClientManager.send] at h
    obtain ⟨d, hd⟩ := sendLoop_error _ _ _ _ _ h
    cases hd
  | unregister conn =>
    by_cases hc : conn ∈ m.clients
    · simp only [ClientManager.step, hc, if_true, chanClose] at h
      by_cases ho : (m.chans conn).closed = true
      · simp only [ho, if_true, Except.error.injEq, Panic.closeOfClosed.injEq] at h
        subst h
        rw [hopen hc] at ho
        cases ho
      · simp only [ho, Bool.false_eq_true, if_false, ClientManager.send] at h
        obtain ⟨d, hd⟩ := sendLoop_error _ _ _ _ _ h
        cases hd
    · simp [ClientManager.step, hc] at h
  | broadcast message ready =>
    simp only [ClientManager.step] at h
    obtain ⟨d, hd⟩ := broadcastLoop_error _ _ _ _ _ h
    cases hd

/-! ## The invariant along a run -/

theorem Inv.wf {m : ClientManager} {R : Client → Prop} (h : Inv m R) : m.WF :=
  ⟨h.1, fun c hc => (h.2.1 c hc).2.1⟩

theorem inv_congr {m : ClientManager} {R S : Client → Prop} (h : Inv m R)
    (hRS : ∀ c, R c ↔ S c) : Inv m S := by
  have e : R = S := funext fun c => propext (hRS c)
  rw [← e]; exact h

theorem manager_inv : Inv manager (fun _ => False) := by
  refine ⟨List.nodup_nil, ?_, ?_, ?_⟩
  · intro c hc; simp [manager] at hc
  · intro c _ hR; exact hR.elim
  · intro c _; simp [manager, Chan.fresh]

theorem step_inv (m : ClientManager) (R : Client → Prop) (r : Request) (h : Inv m R)
    (hfresh : ∀ c ∈ registered [r], ¬ R c) :
    ∃ m1, m.step r = .ok m1 ∧ Inv m1 (fun c => R c ∨ c ∈ registered [r]) ∧
      (∀ c, c ∈ m1.clients ↔ (c ∈ m.clients ∧ r.drops c = false) ∨ c ∈ registered [r]) ∧
      (∀ c, c ∉ m.clients → (m1.chans c).sent = (m.chans c).sent) := by
  obtain ⟨hnd, hmem, hgone, hnew⟩ := h
  have hwf : m.WF := ⟨hnd, fun c hc => (hmem c hc).2.1⟩
  cases r with
  | register conn =>
    have hR : ¬ R conn := hfresh conn (by simp [registered])
    have hnot : conn ∉ m.clients := fun hc => hR (hmem conn hc).1
    refine ⟨_, step_register_eq m conn hwf, ⟨?_, ?_, ?_, ?_⟩, ?_, ?_⟩
    · simp only [mapInsert, hnot, if_false]
      rw [List.nodup_append]
      refine ⟨hnd, List.nodup_singleton _, ?_⟩
      intro a ha hb
      simp only [List.mem_singleton] at hb
      exact hnot (hb ▸ ha)
    · intro c hc
      simp only [mapInsert, hnot, if_false, List.mem_append, List.mem_singleton] at hc
      rcases hc with hc | hc
      · have := hmem c hc
        have hne : c ≠ conn := fun e => hnot (e ▸ hc)
        simp [hc, hne, Chan.push, this.1, this.2.1, this.2.2]
      · subst hc
        have := hnew c hR
        simp [registered, this.1, this.2]
    · intro c hc hRc
      simp only [mapInsert, hnot, if_false, List.mem_append, List.mem_singleton, not_or] at hc
      simp only [registered, List.mem_singleton] at hRc
      have hRc1 : R c := hRc.resolve_right hc.2
      have := hgone c hc.1 hRc1
      simp [hc.1, this.1, this.2]
    · intro c hc
      simp only [registered, List.mem_singleton, not_or] at hc
      have hcm : c ∉ m.clients := fun hcm => hc.1 (hmem c hcm).1
      simpa [hcm] using hnew c hc.1
    · intro c
      simp [mapInsert, hnot, registered, Request.drops]
    · intro c hc
      simp [hc]
  | unregister conn =>
    by_cases hc : conn ∈ m.clients
    · refine ⟨_, step_unregister_eq m conn hwf hc, ⟨?_, ?_, ?_, ?_⟩, ?_, ?_⟩
      · exact hnd.filter _
      · intro c hcm
        simp only [List.mem_filter, decide_eq_true_eq] at hcm
        have := hmem c hcm.1
        simp [hcm.1, hcm.2, Chan.push, registered, this.1, this.2.1, this.2.2]
      · intro c hcm hRc
        simp only [List.mem_filter, decide_eq_true_eq, not_and, not_not] at hcm
        by_cases e : c = conn
        · subst e
          have := hmem c hc
          simp [Chan.shut, this.2.1, this.2.2]
        · have hcm1 : c ∉ m.clients := fun h1 => e (hcm h1)
          simp only [registered, List.not_mem_nil, or_false] at hRc
          have := hgone c hcm1 hRc
          simp [e, hcm1, this.1, this.2]
      · intro c hRc
        simp only [registered, List.not_mem_nil, or_false] at hRc
        have hcm : c ∉ m.clients := fun hcm => hRc (hmem c hcm).1
        have e : c ≠ conn := fun e => hcm (e ▸ hc)
        simpa [e, hcm] using hnew c hRc
      · intro c
        simp only [List.mem_filter, decide_eq_true_eq, registered, List.not_mem_nil, or_false,
          Request.drops, decide_eq_false_iff_not]
        constructor
        · rintro ⟨h1, h2⟩; exact ⟨h1, fun e => h2 e.symm⟩
        · rintro ⟨h1, h2⟩; exact ⟨h1, fun e => h2 e.symm⟩
      · intro c hcm
        have e : c ≠ conn := fun e => hcm (e ▸ hc)
        simp [e, hcm]
    · refine ⟨m, by simp [ClientManager.step, hc], ⟨hnd, ?_, ?_, ?_⟩, ?_, ?_⟩
      · intro c hcm; simpa [registered] using hmem c hcm
      · intro c hcm hRc
        simp only [registered, List.not_mem_nil, or_false] at hRc
        exact hgone c hcm hRc
      · intro c hRc
        simp only [registered, List.not_mem_nil, or_false] at hRc
        exact hnew c hRc
      · intro c
        simp only [registered, List.not_mem_nil, or_false, Request.drops,
          decide_eq_false_iff_not]
        constructor
        · intro h1; exact ⟨h1, fun e => hc (e ▸ h1)⟩
        · intro h1; exact h1.1
      · intro c _; rfl
  | broadcast message ready =>
    refine ⟨_, step_broadcast_eq m message ready hwf, ⟨?_, ?_, ?_, ?_⟩, ?_, ?_⟩
    · exact hnd.filter _
    · intro c hcm
      simp only [List.mem_filter] at hcm
      have := hmem c hcm.1
      simp [hcm.1, hcm.2, Chan.push, registered, this.1, this.2.1, this.2.2]
    · intro c hcm hRc
      simp only [List.mem_filter, not_and] at hcm
      simp only [registered, List.not_mem_nil, or_false] at hRc
      by_cases h1 : c ∈ m.clients
      · have := hmem c h1
        have hr := hcm h1
        simp [h1, hr, Chan.shut, this.2.1, this.2.2]
      · have := hgone c h1 hRc
        simp [h1, this.1, this.2]
    · intro c hRc
      simp only [registered, List.not_mem_nil, or_false] at hRc
      have hcm : c ∉ m.clients := fun hcm => hRc (hmem c hcm).1
      simpa [hcm] using hnew c hRc
    · intro c
      simp [List.mem_filter, registered, Request.drops]
    · intro c hcm
      simp [hcm]

theorem registered_cons (r : Request) (rest : List Request) :
    registered (r :: rest) = registered [r] ++ registered rest := by
  cases r <;> simp [registered]

theorem registered_append (a b : List Request) :
    registered (a ++ b) = registered a ++ registered b := by
  induction a with
  | nil => simp [registered]
  | cons r rest ih =>
    rw [List.cons_append, registered_cons, ih, registered_cons r rest, List.append_assoc]

theorem mem_registered_single (r : Request) (c : Client) :
    c ∈ registered [r] ↔ r = Request.register c := by
  cases r with
  | register conn =>
    simp only [registered, List.mem_singleton]
    constructor
    · intro e; rw [e]
    · intro e; injection e with e; exact e.symm
  | unregister conn => simp [registered]
  | broadcast message ready => simp [registered]

theorem rnu_nil (c : Client) : ¬ RegisteredNotUnregistered [] c := by
  rintro ⟨pre, post, h, _⟩
  cases pre <;> simp at h

theorem rnu_cons (r : Request) (rest : List Request) (c : Client) :
    RegisteredNotUnregistered (r :: rest) c ↔
      (c ∈ registered [r] ∧ ∀ q ∈ rest, q.drops c = false) ∨
        RegisteredNotUnregistered rest c := by
  constructor
  · rintro ⟨pre, post, h, hpost⟩
    cases pre with
    | nil =>
      simp only [List.nil_append, List.cons.injEq] at h
      left
      refine ⟨?_, ?_⟩
      · rw [h.1]; simp [registered]
      · rw [h.2]; exact hpost
    | cons p pre1 =>
      simp only [List.cons_append, List.cons.injEq] at h
      right
      exact ⟨pre1, post, h.2, hpost⟩
  · rintro (⟨h1, h2⟩ | ⟨pre, post, h, hpost⟩)
    · have e := (mem_registered_single r c).mp h1
      exact ⟨[], rest, by rw [e]; rfl, h2⟩
    · exact ⟨r :: pre, post, by rw [h]; rfl, hpost⟩

theorem start_inv : ∀ (ops : List Request) (m : ClientManager) (R : Client → Prop),
    Inv m R → (registered ops).Nodup → (∀ c ∈ registered ops, ¬ R c) →
    ∃ m2, m.start ops = .ok m2 ∧ Inv m2 (fun c => R c ∨ c ∈ registered ops) ∧
      (∀ c, c ∈ m2.clients ↔
        (c ∈ m.clients ∧ ∀ q ∈ ops, q.drops c = false) ∨ RegisteredNotUnregistered ops c) ∧
      (∀ c, c ∉ m.clients → c ∉ registered ops →
        c ∉ m2.clients ∧ (m2.chans c).sent = (m.chans c).sent) := by
  intro ops
  induction ops with
  | nil =>
    intro m R h _ _
    refine ⟨m, rfl, inv_congr h (by simp [registered]), ?_, ?_⟩
    · intro c
      have := rnu_nil c
      simp [this]
    · intro c hc _; exact ⟨hc, rfl⟩
  | cons r rest ih =>
    intro m R h hnd hfresh
    rw [registered_cons r rest] at hnd hfresh
    have hnd2 := List.nodup_append.mp hnd
    obtain ⟨m1, hstep, hinv1, hmem1, hsent1⟩ :=
      step_inv m R r h (fun c hc => hfresh c (List.mem_append_left _ hc))
    obtain ⟨m2, hrun, hinv2, hmem2, hsent2⟩ :=
      ih m1 (fun c => R c ∨ c ∈ registered [r]) hinv1 hnd2.2.1 (by
        intro c hc hR
        rcases hR with hR | hR
        · exact hfresh c (List.mem_append_right _ hc) hR
        · exact hnd2.2.2 hR hc)
    refine ⟨m2, ?_, ?_, ?_, ?_⟩
    · simp only [ClientManager.start, hstep]; exact hrun
    · refine inv_congr hinv2 ?_
      intro c
      rw [registered_cons r rest, List.mem_append, or_assoc]
    · intro c
      rw [hmem2 c, hmem1 c, rnu_cons]
      simp only [List.mem_cons, forall_eq_or_imp]
      tauto
    · intro c hc hreg
      rw [registered_cons r rest, List.mem_append, not_or] at hreg
      have hc1 : c ∉ m1.clients := by
        rw [hmem1 c]
        rintro (h1 | h1)
        · exact hc h1.1
        · exact hreg.1 h1
      have := hsent2 c hc1 hreg.2
      exact ⟨this.1, by rw [this.2, hsent1 c hc]⟩

theorem start_append : ∀ (a b : List Request) (m m1 : ClientManager),
    m.start a = .ok m1 → m.start (a ++ b) = m1.start b := by
  intro a
  induction a with
  | nil =>
    intro b m m1 h
    simp only [ClientManager.start, Except.ok.injEq] at h
    rw [← h]; rfl
  | cons r rest ih =>
    intro b m m1 h
    simp only [ClientManager.start, List.cons_append] at h ⊢
    cases hs : m.step r with
    | error e => rw [hs] at h; simp at h
    | ok m0 =>
      rw [hs] at h
      simp only at h ⊢
      exact ih b m0 m1 h

theorem start_track : ∀ (ops : List Request) (m m1 : ClientManager),
    m.start ops = .ok m1 → m.clients.Nodup →
    m1.clients.Nodup ∧
    (∀ c, c ∈ m1.clients ↔
      (c ∈ m.clients ∧ ∀ q ∈ ops, q.drops c = false) ∨ RegisteredNotUnregistered ops c) ∧
    (∀ c, c ∉ m.clients → c ∉ registered ops →
      c ∉ m1.clients ∧ (m1.chans c).sent = (m.chans c).sent) := by
  intro ops
  induction ops with
  | nil =>
    intro m m1 h hnd
    simp only [ClientManager.start, Except.ok.injEq] at h
    subst h
    refine ⟨hnd, ?_, fun c hc _ => ⟨hc, rfl⟩⟩
    intro c
    have := rnu_nil c
    simp [this]
  | cons r rest ih =>
    intro m m1 h hnd
    simp only [ClientManager.start] at h
    cases hs : m.step r with
    | error e => rw [hs] at h; simp at h
    | ok m0 =>
      rw [hs] at h
      simp only at h
      obtain ⟨hnd0, hmem0, hsent0, _, _⟩ := step_track m m0 r hnd hs
      obtain ⟨hnd1, hmem1, hsent1⟩ := ih m0 m1 h hnd0
      refine ⟨hnd1, ?_, ?_⟩
      · intro c
        rw [hmem1 c, hmem0 c, rnu_cons]
        simp only [List.mem_cons, forall_eq_or_imp]
        tauto
      · intro c hc hreg
        rw [registered_cons r rest, List.mem_append, not_or] at hreg
        have hc0 : c ∉ m0.clients := by
          rw [hmem0 c]
          rintro (h1 | h1)
          · exact hc h1.1
          · exact hreg.1 h1
        have := hsent1 c hc0 hreg.2
        exact ⟨this.1, by rw [this.2, hsent0 c hc]⟩

theorem chanInv_congr {m : ClientManager} {c : Client} {B C : Prop} (h : ChanInv m c B)
    (hBC : B ↔ C) : ChanInv m c C := by
  have e : B = C := propext hBC
  rw [← e]; exact h

theorem start_chan (c : Client) : ∀ (ops : List Request) (m : ClientManager) (B : Prop),
    m.clients.Nodup → ChanInv m c B → (B → c ∉ registered ops) →
    (registered ops).count c ≤ 1 →
    m.start ops ≠ .error (.closeOfClosed c) ∧
      ∀ m1, m.start ops = .ok m1 → ChanInv m1 c (B ∨ c ∈ registered ops) := by
  intro ops
  induction ops with
  | nil =>
    intro m B _ hinv _ _
    refine ⟨by simp [ClientManager.start], ?_⟩
    intro m1 h
    simp only [ClientManager.start, Except.ok.injEq] at h
    subst h
    exact chanInv_congr hinv (by simp [registered])
  | cons r rest ih =>
    intro m B hnd hinv hB hcount
    rw [registered_cons r rest] at hB hcount
    rw [List.count_append] at hcount
    obtain ⟨hin, hout, hnew⟩ := hinv
    cases hs : m.step r with
    | error e =>
      refine ⟨?_, ?_⟩
      · simp only [ClientManager.start, hs]
        intro he
        injection he with he
        subst he
        exact step_no_double_close m r c (fun hc => (hin hc).2.1) hs
      · intro m1 h
        simp [ClientManager.start, hs] at h
    | ok m0 =>
      obtain ⟨hnd0, hmem0, _, hdrop, hkeep⟩ := step_track m m0 r hnd hs
      have hinv0 : ChanInv m0 c (B ∨ c ∈ registered [r]) := by
        by_cases hreg : c ∈ registered [r]
        · have hnB : ¬ B := fun hb => hB hb (List.mem_append_left _ hreg)
          have hcm : c ∉ m.clients := fun hc => hnB (hin hc).1
          have hk := hkeep c (fun hcd => hcm hcd.1)
          have hn := hnew hnB
          have hc0 : c ∈ m0.clients := (hmem0 c).mpr (Or.inr hreg)
          refine ⟨fun _ => ⟨Or.inr hreg, ?_, ?_⟩, fun h0 => absurd hc0 h0, fun h0 =>
            absurd (Or.inr hreg) h0⟩
          · rw [hk.1]; exact hn.1
          · rw [hk.2]; exact hn.2
        · by_cases hcm : c ∈ m.clients
          · obtain ⟨hb, ho, hz⟩ := hin hcm
            by_cases hd : r.drops c = true
            · have hx := hdrop c hcm hd
              have hc0 : c ∉ m0.clients := by
                rw [hmem0 c]
                rintro (h1 | h1)
                · rw [hd] at h1; exact Bool.noConfusion h1.2
                · exact hreg h1
              refine ⟨fun h0 => absurd h0 hc0, fun _ _ => ⟨hx.2.1, ?_⟩, fun h0 =>
                absurd (Or.inl hb) h0⟩
              rw [hx.2.2, hz]
            · have hk := hkeep c (fun hcd => hd hcd.2)
              have hd1 : r.drops c = false := by simpa using hd
              have hc0 : c ∈ m0.clients := (hmem0 c).mpr (Or.inl ⟨hcm, hd1⟩)
              refine ⟨fun _ => ⟨Or.inl hb, ?_, ?_⟩, fun h0 => absurd hc0 h0, fun h0 =>
                absurd (Or.inl hb) h0⟩
              · rw [hk.1]; exact ho
              · rw [hk.2]; exact hz
          · have hk := hkeep c (fun hcd => hcm hcd.1)
            have hc0 : c ∉ m0.clients := by
              rw [hmem0 c]
              rintro (h1 | h1)
              · exact hcm h1.1
              · exact hreg h1
            refine ⟨fun h0 => absurd h0 hc0, ?_, ?_⟩
            · intro _ hb
              have hb1 : B := hb.resolve_right hreg
              have := hout hcm hb1
              rw [hk.1, hk.2]; exact this
            · intro hb
              have := hnew (fun hb1 => hb (Or.inl hb1))
              rw [hk.1, hk.2]; exact this
      have hB0 : (B ∨ c ∈ registered [r]) → c ∉ registered rest := by
        rintro (hb | hreg)
        · exact fun hr => hB hb (List.mem_append_right _ hr)
        · intro hr
          have h1 : 1 ≤ (registered [r]).count c := List.one_le_count_iff.mpr hreg
          have h2 : 1 ≤ (registered rest).count c := List.one_le_count_iff.mpr hr
          omega
      have hcount0 : (registered rest).count c ≤ 1 := by omega
      obtain ⟨ih1, ih2⟩ := ih m0 (B ∨ c ∈ registered [r]) hnd0 hinv0 hB0 hcount0
      refine ⟨?_, ?_⟩
      · simp only [ClientManager.start, hs]; exact ih1
      · intro m1 h
        simp only [ClientManager.start, hs] at h
        refine chanInv_congr (ih2 m1 h) ?_
        rw [registered_cons r rest, List.mem_append, or_assoc]

theorem manager_chanInv (c : Client) : ChanInv manager c False := by
  refine ⟨?_, ?_, ?_⟩
  · intro hc; simp [manager] at hc
  · intro _ hF; exact hF.elim
  · intro _; simp [manager, Chan.fresh]

theorem start_from_manager (ops : List Request) (h : FreshRegs ops) :
    ∃ m1, manager.start ops = .ok m1 ∧ Inv m1 (fun c => c ∈ registered ops) ∧
      (∀ c, c ∈ m1.clients ↔ RegisteredNotUnregistered ops c) := by
  obtain ⟨m1, hrun, hinv, hmem, _⟩ :=
    start_inv ops manager (fun _ => False) manager_inv h (fun _ _ hF => hF)
  refine ⟨m1, hrun, inv_congr hinv (by simp), ?_⟩
  intro c
  rw [hmem c]
  simp [manager]

/-- Every state the hub loop reaches from the empty map, when each client is
registered at most once, is well-formed. -/
theorem start_wf (ops : List Request) (h : FreshRegs ops) :
    ∃ m1, manager.start ops = .ok m1 ∧ m1.WF := by
  obtain ⟨m1, hrun, hinv, _⟩ := start_from_manager ops h
  exact ⟨m1, hrun, hinv.wf⟩

/-! ## The hub: one request -/

/-- C1. Backpressure eviction: when the hub processes a broadcast of `message`
in a well-formed state, every member whose channel does not accept the
non-blocking send is, after that same pass, no longer in the map, has its
channel closed by one `close`, and has not been sent `message`. -/
theorem broadcast_evicts_blocked (m : ClientManager) (message : Payload)
    (ready : Client → Bool) (h : m.WF) :
    ∃ m1, m.step (.broadcast message ready) = .ok m1 ∧
      ∀ c ∈ m.clients, ready c = false →
        c ∉ m1.clients ∧ (m1.chans c).closed = true ∧
        (m1.chans c).closes = (m.chans c).closes + 1 ∧
        (m1.chans c).sent = (m.chans c).sent := by
  refine ⟨_, step_broadcast_eq m message ready h, ?_⟩
  intro c hc hr
  simp [hc, hr, Chan.shut, List.mem_filter]

theorem broadcast_evicts_blocked_witness :
    hub123.WF ∧ ∃ m1, hub123.step (.broadcast "m" (fun c => decide (c = 2))) = .ok m1 ∧
      ∀ c ∈ hub123.clients, (fun c => decide (c = 2)) c = false →
        c ∉ m1.clients ∧ (m1.chans c).closed = true ∧
        (m1.chans c).closes = (hub123.chans c).closes + 1 ∧
        (m1.chans c).sent = (hub123.chans c).sent :=
  ⟨by decide, broadcast_evicts_blocked hub123 "m" (fun c => decide (c = 2)) (by decide)⟩

/-- C2. Unregister is idempotent: unregistering a client that is not in the
map returns the state unchanged (no channel closed, nothing sent), and
processing the same unregistration twice in a row gives the same outcome as
processing it once. -/
theorem unregister_idempotent (m : ClientManager) (conn : Client) :
    (conn ∉ m.clients → m.step (.unregister conn) = .ok m) ∧
      m.start [.unregister conn, .unregister conn] = m.start [.unregister conn] := by
  have habsent : ∀ m0 : ClientManager, conn ∉ m0.clients →
      m0.step (.unregister conn) = .ok m0 := by
    intro m0 h0; simp [ClientManager.step, h0]
  refine ⟨habsent m, ?_⟩
  simp only [ClientManager.start]
  cases hs : m.step (.unregister conn) with
  | error e => rfl
  | ok m1 =>
    have hgone : conn ∉ m1.clients := by
      by_cases hc : conn ∈ m.clients
      · simp only [ClientManager.step, hc, if_true, chanClose] at hs
        by_cases ho : (m.chans conn).closed = true
        · simp [ho] at hs
        · simp only [ho, Bool.false_eq_true, if_false, ClientManager.send] at hs
          rw [sendLoop_clients _ _ _ _ _ hs]
          simp [mapDelete]
      · rw [habsent m hc] at hs
        injection hs with hs
        rw [← hs]; exact hc
    simp only [habsent m1 hgone]

theorem unregister_idempotent_witness :
    5 ∉ hub123.clients ∧ hub123.step (.unregister 5) = .ok hub123 ∧
      hub123.start [.unregister 2, .unregister 2] = hub123.start [.unregister 2] :=
  ⟨by decide, (unregister_idempotent hub123 5).1 (by decide),
    (unregister_idempotent hub123 2).2⟩

/-- C3. Register postcondition: registering a client that is not yet in the
map of a well-formed hub adds it and removes nobody, sends exactly one join
notice to every other member, and leaves every other channel, the new
client's own included, untouched; no channel is closed.  The join notice is
the object with the single field `content`. -/
theorem register_postcondition (m : ClientManager) (conn : Client) (h : m.WF)
    (hfresh : conn ∉ m.clients) :
    ∃ m1, m.step (.register conn) = .ok m1 ∧ m1.clients.Nodup ∧
      (∀ d, d ∈ m1.clients ↔ d ∈ m.clients ∨ d = conn) ∧
      (∀ d ∈ m.clients, (m1.chans d).sent = (m.chans d).sent ++ [joinNotice]) ∧
      (∀ d, d ∉ m.clients → m1.chans d = m.chans d) ∧
      (∀ d, (m1.chans d).closed = (m.chans d).closed ∧
        (m1.chans d).closes = (m.chans d).closes) ∧
      joinNotice = "\x7b\"content\":\"/New socket connected\"\x7d" := by
  refine ⟨_, step_register_eq m conn h, ?_, ?_, ?_, ?_, ?_, by decide⟩
  · simp only [mapInsert, hfresh, if_false]
    rw [List.nodup_append]
    refine ⟨h.1, List.nodup_singleton _, ?_⟩
    intro a ha hb
    simp only [List.mem_singleton] at hb
    exact hfresh (hb ▸ ha)
  · intro d; simp [mapInsert, hfresh]
  · intro d hd
    have hne : d ≠ conn := fun e => hfresh (e ▸ hd)
    simp [hd, hne, Chan.push]
  · intro d hd; simp [hd]
  · intro d
    by_cases hd : d ∈ m.clients ∧ d ≠ conn
    · simp [hd, Chan.push]
    · simp only [hd, if_false, and_self]

theorem register_postcondition_witness :
    hub123.WF ∧ 4 ∉ hub123.clients ∧
      ∃ m1, hub123.step (.register 4) = .ok m1 ∧ m1.clients.Nodup ∧
      (∀ d, d ∈ m1.clients ↔ d ∈ hub123.clients ∨ d = 4) ∧
      (∀ d ∈ hub123.clients, (m1.chans d).sent = (hub123.chans d).sent ++ [joinNotice]) ∧
      (∀ d, d ∉ hub123.clients → m1.chans d = hub123.chans d) ∧
      (∀ d, (m1.chans d).closed = (hub123.chans d).closed ∧
        (m1.chans d).closes = (hub123.chans d).closes) ∧
      joinNotice = "\x7b\"content\":\"/New socket connected\"\x7d" :=
  ⟨by decide, by decide, register_postcondition hub123 4 (by decide) (by decide)⟩

/-- C4. Unregister postcondition: unregistering a member of a well-formed hub
removes it from the map and keeps all other members, closes its channel by one
`close`, sends it nothing, and sends exactly one leave notice to every
remaining member, whose channels stay open.  The leave notice is the object
with the single field `content`. -/
theorem unregister_postcondition (m : ClientManager) (conn : Client) (h : m.WF)
    (hmem : conn ∈ m.clients) :
    ∃ m1, m.step (.unregister conn) = .ok m1 ∧
      (∀ d, d ∈ m1.clients ↔ d ∈ m.clients ∧ d ≠ conn) ∧
      (m1.chans conn).closed = true ∧
      (m1.chans conn).closes = (m.chans conn).closes + 1 ∧
      (m1.chans conn).sent = (m.chans conn).sent ∧
      (∀ d ∈ m1.clients, (m1.chans d).sent = (m.chans d).sent ++ [leaveNotice] ∧
        (m1.chans d).closed = false ∧ (m1.chans d).closes = (m.chans d).closes) ∧
      (∀ d, d ∉ m.clients → m1.chans d = m.chans d) ∧
      leaveNotice = "\x7b\"content\":\"/A socket disconnected\"\x7d" := by
  refine ⟨_, step_unregister_eq m conn h hmem, ?_, ?_, ?_, ?_, ?_, ?_, by decide⟩
  · intro d; simp [List.mem_filter]
  · simp [Chan.shut]
  · simp [Chan.shut]
  · simp [Chan.shut]
  · intro d hd
    simp only [List.mem_filter, decide_eq_true_eq] at hd
    simp [hd.1, hd.2, Chan.push, h.2 d hd.1]
  · intro d hd
    have hne : d ≠ conn := fun e => hd (e ▸ hmem)
    simp [hd, hne]

theorem unregister_postcondition_witness :
    hub123.WF ∧ 2 ∈ hub123.clients ∧
      ∃ m1, hub123.step (.unregister 2) = .ok m1 ∧
      (∀ d, d ∈ m1.clients ↔ d ∈ hub123.clients ∧ d ≠ 2) ∧
      (m1.chans 2).closed = true ∧
      (m1.chans 2).closes = (hub123.chans 2).closes + 1 ∧
      (m1.chans 2).sent = (hub123.chans 2).sent ∧
      (∀ d ∈ m1.clients, (m1.chans d).sent = (hub123.chans d).sent ++ [leaveNotice] ∧
        (m1.chans d).closed = false ∧ (m1.chans d).closes = (hub123.chans d).closes) ∧
      (∀ d, d ∉ hub123.clients → m1.chans d = hub123.chans d) ∧
      leaveNotice = "\x7b\"content\":\"/A socket disconnected\"\x7d" :=
  ⟨by decide, by decide, unregister_postcondition hub123 2 (by decide) (by decide)⟩

/-- C5. Broadcast delivery: when the hub processes a broadcast of `message` in
a well-formed state, every member whose channel accepts the non-blocking send,
whoever originated the message, is sent exactly one copy of exactly `message`,
the same payload for every recipient, and is afterwards still in the map with
an open channel. -/
theorem broadcast_delivers (m : ClientManager) (message : Payload)
    (ready : Client → Bool) (h : m.WF) :
    ∃ m1, m.step (.broadcast message ready) = .ok m1 ∧
      ∀ c ∈ m.clients, ready c = true →
        c ∈ m1.clients ∧ (m1.chans c).closed = false ∧
        (m1.chans c).closes = (m.chans c).closes ∧
        (m1.chans c).sent = (m.chans c).sent ++ [message] := by
  refine ⟨_, step_broadcast_eq m message ready h, ?_⟩
  intro c hc hr
  simp [hc, hr, Chan.push, List.mem_filter, h.2 c hc]

theorem broadcast_delivers_witness :
    hub123.WF ∧ ∃ m1, hub123.step (.broadcast "m" (fun c => decide (c = 2))) = .ok m1 ∧
      ∀ c ∈ hub123.clients, (fun c => decide (c = 2)) c = true →
        c ∈ m1.clients ∧ (m1.chans c).closed = false ∧
        (m1.chans c).closes = (hub123.chans c).closes ∧
        (m1.chans c).sent = (hub123.chans c).sent ++ ["m"] :=
  ⟨by decide, broadcast_delivers hub123 "m" (fun c => decide (c = 2)) (by decide)⟩

/-! ## The hub: runs from the initial state -/

theorem start_total (ops : List Request) (h : FreshRegs ops) :
    ∃ m1, manager.start ops = .ok m1 := by
  obtain ⟨m1, hrun, _⟩ := start_from_manager ops h
  exact ⟨m1, hrun⟩

/-- C6. Membership tracking: whenever the hub loop, started on the empty map,
has processed a sequence of register, unregister and broadcast requests, the
map holds every key once and holds exactly the clients that were registered
and not yet unregistered (by a request or by a backpressure drop); and it does
process every sequence in which each client is registered at most once. -/
theorem membership_tracking (ops : List Request) :
    (FreshRegs ops → ∃ m1, manager.start ops = .ok m1) ∧
    (∀ m1, manager.start ops = .ok m1 →
      m1.clients.Nodup ∧ ∀ c, c ∈ m1.clients ↔ RegisteredNotUnregistered ops c) := by
  refine ⟨start_total ops, ?_⟩
  intro m1 h
  obtain ⟨hnd, hmem, _⟩ := start_track ops manager m1 h List.nodup_nil
  refine ⟨hnd, ?_⟩
  intro c
  rw [hmem c]
  simp [manager]

theorem membership_tracking_witness :
    FreshRegs evictThenUnregister ∧
      ∃ m1, manager.start evictThenUnregister = .ok m1 ∧ m1.clients.Nodup ∧
        ∀ c, c ∈ m1.clients ↔ RegisteredNotUnregistered evictThenUnregister c := by
  obtain ⟨m1, hm⟩ := (membership_tracking evictThenUnregister).1 (by decide)
  exact ⟨by decide, m1, hm, (membership_tracking evictThenUnregister).2 m1 hm⟩

/-- C7. Close exactly once: let `c` be registered at most once in a sequence of
requests processed from the empty map, whatever else the sequence holds
(repeated unregistrations of `c`, a broadcast that evicts `c` before its
unregistration arrives).  The hub never closes the already closed channel of
`c`; after the sequence the number of `close` operations executed on the
channel of `c` is one when `c` was registered and is no longer in the map, and
zero otherwise, and the channel is closed exactly in the first case.  The hub
processes every sequence in which each client is registered at most once. -/
theorem close_exactly_once (ops : List Request) (c : Client)
    (honce : (registered ops).count c ≤ 1) :
    manager.start ops ≠ .error (.closeOfClosed c) ∧
    (∀ m1, manager.start ops = .ok m1 →
      (m1.chans c).closes = (if c ∈ registered ops ∧ c ∉ m1.clients then 1 else 0) ∧
      ((m1.chans c).closed = true ↔ c ∈ registered ops ∧ c ∉ m1.clients)) ∧
    (FreshRegs ops → ∃ m1, manager.start ops = .ok m1) := by
  obtain ⟨hno, hinv⟩ := start_chan c ops manager False List.nodup_nil (manager_chanInv c)
    (fun hF => hF.elim) honce
  refine ⟨hno, ?_, start_total ops⟩
  intro m1 h
  have hinv1 : ChanInv m1 c (c ∈ registered ops) :=
    chanInv_congr (hinv m1 h) ⟨fun hx => hx.resolve_left id, Or.inr⟩
  obtain ⟨hin, hout, hnew⟩ := hinv1
  by_cases hr : c ∈ registered ops
  · by_cases hc : c ∈ m1.clients
    · have := hin hc
      simp [hc, this.2.1, this.2.2]
    · have := hout hc hr
      simp [hr, hc, this.1, this.2]
  · have := hnew hr
    simp [hr, this.1, this.2]

theorem close_exactly_once_witness :
    (registered evictThenUnregister).count 1 ≤ 1 ∧
      manager.start evictThenUnregister ≠ .error (.closeOfClosed 1) ∧
      ∃ m1, manager.start evictThenUnregister = .ok m1 ∧
        (m1.chans 1).closes =
          (if 1 ∈ registered evictThenUnregister ∧ 1 ∉ m1.clients then 1 else 0) ∧
        ((m1.chans 1).closed = true ↔
          1 ∈ registered evictThenUnregister ∧ 1 ∉ m1.clients) := by
  have h := close_exactly_once evictThenUnregister 1 (by decide)
  obtain ⟨m1, hm⟩ := h.2.2 (by decide)
  exact ⟨by decide, h.1, m1, hm, h.2.1 m1 hm⟩

/-- C10. No fan-out after unregistration: in every sequence of requests
processed from the empty map, each request sends only on channels of clients
that are in the map when the request arrives, and a client that is out of the
map at some point and is not registered later stays out and is sent nothing by
any later request.  The hub processes every sequence in which each client is
registered at most once. -/
theorem no_fanout_after_removal (pre post : List Request) (r : Request) :
    (FreshRegs (pre ++ r :: post) →
      ∃ m1 m2 m3, manager.start pre = .ok m1 ∧ m1.step r = .ok m2 ∧
        m2.start post = .ok m3 ∧ manager.start (pre ++ r :: post) = .ok m3) ∧
    (∀ m1 m2 m3, manager.start pre = .ok m1 → m1.step r = .ok m2 →
      m2.start post = .ok m3 →
      (∀ c, c ∉ m1.clients → (m2.chans c).sent = (m1.chans c).sent) ∧
      (∀ c, c ∉ m1.clients → c ∉ registered (r :: post) →
        c ∉ m3.clients ∧ (m3.chans c).sent = (m1.chans c).sent)) := by
  refine ⟨?_, ?_⟩
  · intro h
    unfold FreshRegs at h
    rw [registered_append] at h
    have hnd := List.nodup_append.mp h
    obtain ⟨m1, hrun1, hinv1, _, _⟩ :=
      start_inv pre manager (fun _ => False) manager_inv hnd.1 (fun _ _ hF => hF)
    have hfresh : ∀ c ∈ registered (r :: post),
        ¬ ((fun _ => False) c ∨ c ∈ registered pre) := by
      intro c hc hR
      rcases hR with hR | hR
      · exact hR
      · exact hnd.2.2 hR hc
    obtain ⟨m3, hrun3, _, _, _⟩ := start_inv (r :: post) m1 _ hinv1 hnd.2.1 hfresh
    obtain ⟨m2, hstep, _, _, _⟩ := step_inv m1 _ r hinv1 (by
      intro c hc
      apply hfresh c
      rw [registered_cons r post]
      exact List.mem_append_left _ hc)
    have hrun2 : m2.start post = .ok m3 := by
      simp only [ClientManager.start, hstep] at hrun3
      exact hrun3
    refine ⟨m1, m2, m3, hrun1, hstep, hrun2, ?_⟩
    rw [start_append pre (r :: post) manager m1 hrun1]
    simp only [ClientManager.start, hstep]
    exact hrun2
  · intro m1 m2 m3 h1 h2 h3
    obtain ⟨hnd1, _, _⟩ := start_track pre manager m1 h1 List.nodup_nil
    obtain ⟨_, _, hsent2, _, _⟩ := step_track m1 m2 r hnd1 h2
    have h13 : m1.start (r :: post) = .ok m3 := by
      simp only [ClientManager.start, h2]; exact h3
    obtain ⟨_, _, hsent3⟩ := start_track (r :: post) m1 m3 h13 hnd1
    exact ⟨hsent2, hsent3⟩

theorem no_fanout_after_removal_witness :
    FreshRegs ([.register 1, .register 2, .unregister 1] ++
        Request.broadcast "m" (fun _ => true) :: [.register 3, .unregister 1]) ∧
      ∃ m1 m2 m3, manager.start [.register 1, .register 2, .unregister 1] = .ok m1 ∧
        m1.step (.broadcast "m" (fun _ => true)) = .ok m2 ∧
        m2.start [.register 3, .unregister 1] = .ok m3 ∧
        (∀ c, c ∉ m1.clients → (m2.chans c).sent = (m1.chans c).sent) ∧
        (∀ c, c ∉ m1.clients →
          c ∉ registered (Request.broadcast "m" (fun _ => true) ::
            [.register 3, .unregister 1]) →
          c ∉ m3.clients ∧ (m3.chans c).sent = (m1.chans c).sent) := by
  have h := no_fanout_after_removal [.register 1, .register 2, .unregister 1]
    [.register 3, .unregister 1] (.broadcast "m" (fun _ => true))
  obtain ⟨m1, m2, m3, h1, h2, h3, _⟩ := h.1 (by decide)
  exact ⟨by decide, m1, m2, m3, h1, h2, h3, h.2 m1 m2 m3 h1 h2 h3⟩

/-! ## The two pumps -/

theorem readLoop_frames (c : Client) (id : String) (tail : List ReadResult) :
    ∀ frames : List String,
      readLoop c id (frames.map ReadResult.frame ++ tail) =
        (frames.map (fun message => ReadEvent.broadcast
            (marshal { Sender := id, Recipient := "", Content := message })) ++
          (readLoop c id tail).1, (readLoop c id tail).2) := by
  intro frames
  induction frames with
  | nil => simp
  | cons f rest ih => simp [readLoop, ih]

/-- C8. On a read failure after any number of successful frames, `Client.read`
returns, having sent the client on `unregister` twice: once in the error
branch of the loop and once more in the deferred function. -/
theorem read_unregisters_twice (c : Client) (id : String) (frames : List String) :
    Client.read c id (frames.map ReadResult.frame ++ [ReadResult.failure]) =
        (frames.map (fun message => ReadEvent.broadcast
            (marshal { Sender := id, Recipient := "", Content := message })) ++
          [.unregister c, .socketClose, .unregister c, .socketClose], true) ∧
      (Client.read c id (frames.map ReadResult.frame ++ [ReadResult.failure])).1.count
        (ReadEvent.unregister c) = 2 := by
  have e : Client.read c id (frames.map ReadResult.frame ++ [ReadResult.failure]) =
        (frames.map (fun message => ReadEvent.broadcast
            (marshal { Sender := id, Recipient := "", Content := message })) ++
          [.unregister c, .socketClose, .unregister c, .socketClose], true) := by
    simp [Client.read, readLoop_frames, readLoop]
  refine ⟨e, ?_⟩
  rw [e]
  simp only [List.count_append]
  have h0 : (frames.map (fun message => ReadEvent.broadcast
      (marshal { Sender := id, Recipient := "", Content := message }))).count
        (ReadEvent.unregister c) = 0 := by
    rw [List.count_eq_zero]
    intro hm
    simp at hm
  rw [h0]
  simp [List.count_cons]

theorem writeLoop_eq (closedAfter : Bool) : ∀ deliveries : List (Payload × Bool),
    writeLoop deliveries closedAfter =
      (deliveries.map (fun d => WriteEvent.writeText d.1) ++
        (if closedAfter then [WriteEvent.writeClose] else []), closedAfter) := by
  intro deliveries
  induction deliveries with
  | nil => cases closedAfter <;> simp [writeLoop]
  | cons d rest ih =>
    obtain ⟨message, ok⟩ := d
    simp [writeLoop, ih]

/-- C9, as the claim states it, fails: after the write of "a" has failed the
writer still writes "b", and it neither returns nor closes the transport. -/
theorem write_continues_after_failed_write :
    ¬ StopsAtFailedWrite [("a", false), ("b", true)] false ∧
      Client.write [("a", false), ("b", true)] false =
        ([.writeText "a", .writeText "b"], false) := by
  refine ⟨?_, by decide⟩
  intro hstop
  have := hstop [] "a" [("b", true)] rfl (by simp)
  revert this
  decide

/-- C9, amended. `Client.write` discards the outcome of every transport write:
it attempts to write each payload received from the channel, in order,
whatever the earlier writes returned, and it returns only when it finds the
channel closed, after writing a close frame and then closing the transport. -/
theorem write_attempts_every_payload (deliveries : List (Payload × Bool))
    (closedAfter : Bool) :
    Client.write deliveries closedAfter =
      (deliveries.map (fun d => WriteEvent.writeText d.1) ++
        (if closedAfter then [WriteEvent.writeClose, WriteEvent.socketClose] else []),
        closedAfter) := by
  cases closedAfter <;> simp [Client.write, writeLoop_eq]

end GoChat
